import Mathlib

/-!
# realize: settings persistence, resource files and the random token generator

A shallow embedding of `settings.go` (package `main` of realize) and the
properties of it that its specification states.

## What is embedded

* `random` (lines 61-76): the loop over the 63-bit cache, with the random
  source as a parameter (`Source`, the successive results of `src.Int63()`)
  and with fuel, since the loop of the source has no bound of its own.
* `Settings.del`, `validate`, `read`, `record`, `stream`, `fatal`, `write`
  and `create` (lines 79-162), as functions over an explicit filesystem
  state `FS`.

## The environment

The Go standard library and `gopkg.in/yaml.v2` are not code of the
repository.  They are modelled as follows.

* A path is its list of components relative to the directory the process
  runs in; `[]` is that directory itself.  `Settings.file` and a resource
  name are one component each (the spec calls the first a base file name).
* A filesystem state gives every path a regular file with its bytes, a
  directory with a flag saying whether entries may be created or removed in
  it, or nothing.  Regular files are readable and writable by the process;
  symbolic links, modes of files and the umask are not modelled.
* `log.Fatalln` ends the process: a function that can reach it returns an
  `Outcome`, either `ret` with its result or `exit` with what was printed.
* The yaml encoder and decoder are a parameter (`Codec`).
-/

namespace Realize

/-! ## Random token generator -/

/-- Number of bits that hold one letter index (`letterIdxBits`, line 25). -/
def letterIdxBits : Nat := 6

/-- All one-bits, as many as `letterIdxBits` (line 26): `1<<6 - 1 = 63`. -/
def letterIdxMask : Nat := 1 <<< letterIdxBits - 1

/-- Number of letter indices that fit in 63 bits (line 27): `63 / 6 = 10`. -/
def letterIdxMax : Nat := 63 / letterIdxBits

/-- The alphabet (line 28). -/
def letterBytes : String := "abcdefghijklmnopqrstuvwxyzABCDEFGHIJKLMNOPQRSTUVWXYZ"

/-- The random source `rand.NewSource(...)` as the sequence of the values its
successive `Int63()` calls deliver. -/
abbrev Source := Nat → Nat

/-- The `k`-th result of `src.Int63()`: a non-negative 63-bit integer. -/
def Int63 (src : Source) (k : Nat) : Nat := src k % 2 ^ 63

/-- The `for` loop of `random` (lines 64-74).  The arguments are the fuel, the
number `next` of draws made so far, and the loop variables `i`, `cache`,
`remain` and the byte slice `b`.  The result is `b` when the loop condition
`i >= 0` fails, and `none` when the fuel runs out first. -/
def randomLoop (src : Source) :
    Nat → Nat → Int → Nat → Nat → List Char → Option (List Char)
  | 0, _, i, _, _, b => if i ≥ 0 then none else some b
  | fuel + 1, next, i, cache, remain, b =>
    if i ≥ 0 then
      let cache1 := if remain = 0 then Int63 src next else cache
      let remain1 := if remain = 0 then letterIdxMax else remain
      let next1 := if remain = 0 then next + 1 else next
      let idx := cache1 &&& letterIdxMask
      if idx < letterBytes.length then
        randomLoop src fuel next1 (i - 1) (cache1 >>> letterIdxBits) (remain1 - 1)
          (b.set i.toNat (letterBytes.data.getD idx (Char.ofNat 0)))
      else
        randomLoop src fuel next1 i (cache1 >>> letterIdxBits) (remain1 - 1) b
    else some b

/-- The function `random(n)` (lines 61-76): `b := make([]byte, n)`, the first
draw in the loop header, the loop, and `string(b)`. -/
def random (src : Source) (fuel : Nat) (n : Nat) : Option String :=
  (randomLoop src fuel 1 ((n : Int) - 1) (Int63 src 0) letterIdxMax
    (List.replicate n (Char.ofNat 0))).map String.mk

/-- The 10 lowest 6-bit groups of one draw, from the least significant end
(the reading of the draw the specification describes). -/
def groupsOfDraw (d : Nat) : List Nat :=
  (List.range letterIdxMax).map (fun j => d / 64 ^ j % 64)

/-- The groups of the first `m` draws, in the order they are consumed. -/
def drawnGroups (src : Source) (m : Nat) : List Nat :=
  (List.range m).flatMap (fun k => groupsOfDraw (Int63 src k))

/-- The groups of the first `m` draws that are left once every group with a
value in 52..63 is discarded. -/
def acceptedGroups (src : Source) (m : Nat) : List Nat :=
  (drawnGroups src m).filter (fun g => g < 52)

/-- The groups the cache still holds: `remain` of them, lowest first. -/
def cacheGroups : Nat → Nat → List Nat
  | _, 0 => []
  | cache, r + 1 => cache % 64 :: cacheGroups (cache / 64) r

/-- The groups of the `t` draws that follow draw number `next`. -/
def futureGroups (src : Source) : Nat → Nat → List Nat
  | _, 0 => []
  | next, t + 1 => cacheGroups (Int63 src next) letterIdxMax ++ futureGroups src (next + 1) t

/-- The byte `letterBytes[g]`. -/
def letterOf (g : Nat) : Char := letterBytes.data.getD g (Char.ofNat 0)

/-- A source whose first draw has the groups 63, 1, 27, 0, 0, ... and whose
later draws are 5. -/
def sampleSource : Source := fun k => if k = 0 then 63 + 64 * 1 + 64 ^ 2 * 27 else 5

/-! ## Filesystem -/

/-- A path: its components, relative to the directory the process runs in. -/
abbrev Path := List String

/-- The content of a file, `[]byte`. -/
abbrev Bytes := List Nat

/-- The error numbers the modelled system calls report. -/
inductive Errno
  | ENOENT | ENOTDIR | EISDIR | EEXIST | EACCES | EINVAL | EBADF
  deriving DecidableEq

/-- A non-nil Go `error`: a path error that wraps an error number, or an error
of the yaml package with its text.  The nil error is `none`. -/
inductive GoError
  | sys (e : Errno)
  | yaml (text : String)
  deriving DecidableEq

/-- What a path names: a regular file with its bytes, or a directory; the
flag of a directory says whether the process may create and remove entries
in it. -/
inductive Node
  | file (data : Bytes)
  | dir (writable : Bool)
  deriving DecidableEq

/-- A filesystem state, seen from the directory the process runs in: whether
that directory is writable, and what every other path names. -/
structure FS where
  cwdWritable : Bool
  entries : Path → Option Node

/-- The node at a path; the empty path is the current directory. -/
def FS.get (fs : FS) (p : Path) : Option Node :=
  if p = [] then some (.dir fs.cwdWritable) else fs.entries p

/-- The state with the entry at `p` replaced. -/
def FS.set (fs : FS) (p : Path) (n : Option Node) : FS :=
  { fs with entries := fun q => if q = p then n else fs.entries q }

/-- Path resolution: from `pre`, descend through the components `cs`.  A
missing component is `ENOENT`, a regular file in the way is `ENOTDIR`. -/
def walk (fs : FS) : Path → List String → Except Errno Node
  | pre, [] =>
    match fs.get pre with
    | none => .error .ENOENT
    | some n => .ok n
  | pre, c :: cs =>
    match fs.get pre with
    | none => .error .ENOENT
    | some (.file _) => .error .ENOTDIR
    | some (.dir _) => walk fs (pre ++ [c]) cs

/-- What a path resolves to. -/
def lookup (fs : FS) (p : Path) : Except Errno Node := walk fs [] p

deriving instance DecidableEq for Except

/-- Whether something exists at a path. -/
def existsAt (fs : FS) (p : Path) : Bool :=
  match lookup fs p with
  | .ok _ => true
  | .error _ => false

/-- The flags of `os.OpenFile` the code uses. -/
inductive Flag
  | O_WRONLY | O_APPEND | O_CREATE | O_TRUNC | O_SYNC
  deriving DecidableEq

namespace os

/-- An open file, `*os.File`: the path it was opened at and its flags. -/
structure File where
  name : Path
  flag : List Flag
  deriving DecidableEq

/-- The error result of `os.Stat(name)`; the file information is never used by
the code. -/
def Stat (fs : FS) (name : Path) : Option GoError :=
  match lookup fs name with
  | .ok _ => none
  | .error e => some (.sys e)

/-- The test `os.IsNotExist(err)`: true of `ENOENT` only, false of nil. -/
def IsNotExist (err : Option GoError) : Bool :=
  match err with
  | some (.sys .ENOENT) => true
  | _ => false

/-- The call `os.Mkdir(name, perm)`: a single level; fails when the path
exists, when its parent is missing or no directory, and when the parent is
not writable. -/
def Mkdir (fs : FS) (name : Path) (perm : Nat) : FS × Option GoError :=
  match lookup fs name with
  | .ok _ => (fs, some (.sys .EEXIST))
  | .error .ENOENT =>
    match lookup fs name.dropLast with
    | .ok (.dir true) => (fs.set name (some (.dir (decide (perm / 128 % 2 = 1)))), none)
    | .ok (.dir false) => (fs, some (.sys .EACCES))
    | .ok (.file _) => (fs, some (.sys .ENOTDIR))
    | .error e => (fs, some (.sys e))
  | .error e => (fs, some (.sys e))

/-- The call `os.OpenFile(name, flag, perm)` for writing: a directory cannot be
opened, an existing file is truncated only with `O_TRUNC`, a missing file is
created empty with `O_CREATE` when its parent is a writable directory. -/
def OpenFile (fs : FS) (name : Path) (flag : List Flag) (_perm : Nat) :
    FS × Option File × Option GoError :=
  match lookup fs name with
  | .ok (.dir _) => (fs, none, some (.sys .EISDIR))
  | .ok (.file _) =>
    if Flag.O_TRUNC ∈ flag then (fs.set name (some (.file [])), some ⟨name, flag⟩, none)
    else (fs, some ⟨name, flag⟩, none)
  | .error .ENOENT =>
    if Flag.O_CREATE ∈ flag then
      match lookup fs name.dropLast with
      | .ok (.dir true) => (fs.set name (some (.file [])), some ⟨name, flag⟩, none)
      | .ok (.dir false) => (fs, none, some (.sys .EACCES))
      | .ok (.file _) => (fs, none, some (.sys .ENOTDIR))
      | .error e => (fs, none, some (.sys e))
    else (fs, none, some (.sys .ENOENT))
  | .error e => (fs, none, some (.sys e))

/-- The first `f.Write(b)` on a freshly opened file: with `O_APPEND` the bytes go
to the end, otherwise they overwrite from offset 0. -/
def File.Write (f : File) (fs : FS) (b : Bytes) : FS × Option GoError :=
  match fs.get f.name with
  | some (.file old) =>
    if Flag.O_APPEND ∈ f.flag then (fs.set f.name (some (.file (old ++ b))), none)
    else (fs.set f.name (some (.file (b ++ old.drop b.length))), none)
  | _ => (fs, some (.sys .EBADF))

/-- The call `os.RemoveAll(path)`: nil when nothing is there; otherwise the path
and everything under it go, which needs a writable parent.  A removal that
fails leaves the state as it was (partial removals are not modelled). -/
def RemoveAll (fs : FS) (path : Path) : FS × Option GoError :=
  if path = [] then (fs, some (.sys .EINVAL))
  else
    match lookup fs path with
    | .error .ENOENT => (fs, none)
    | .error e => (fs, some (.sys e))
    | .ok _ =>
      match lookup fs path.dropLast with
      | .ok (.dir true) =>
        ({ fs with entries := fun q => if path <+: q then none else fs.entries q }, none)
      | _ => (fs, some (.sys .EACCES))

end os

namespace ioutil

/-- The call `ioutil.ReadFile(filename)`; reading a directory fails. -/
def ReadFile (fs : FS) (filename : Path) : Bytes × Option GoError :=
  match lookup fs filename with
  | .ok (.file data) => (data, none)
  | .ok (.dir _) => ([], some (.sys .EISDIR))
  | .error e => ([], some (.sys e))

/-- The call `ioutil.WriteFile(filename, data, perm)`: open with
`O_WRONLY|O_CREATE|O_TRUNC`, write, close. -/
def WriteFile (fs : FS) (filename : Path) (data : Bytes) (perm : Nat) : FS × Option GoError :=
  match os.OpenFile fs filename [Flag.O_WRONLY, Flag.O_CREATE, Flag.O_TRUNC] perm with
  | (fs1, some f, none) => f.Write fs1 data
  | (fs1, _, some err) => (fs1, some err)
  | (fs1, none, none) => (fs1, none)

end ioutil

namespace filepath

/-- The call `filepath.Join(elem...)` on paths given by their components. -/
def Join (elem : List Path) : Path := elem.flatten

end filepath

/-- The yaml package, as far as the code uses it: `Marshal(in)` gives the bytes
and an error text, `Unmarshal(in, out)` the value `out` holds afterwards and
an error text. -/
structure Codec (α : Type) where
  Marshal : α → Bytes × Option String
  Unmarshal : Bytes → α → α × Option String

/-- How a call ends: it returns, or `log.Fatalln` prints and ends the process.
`exit` records the context messages handed to the colour helper `red.regular`
(defined in another file of the repository; the colouring is cosmetic) and
the error whose text is printed. -/
inductive Outcome (α : Type)
  | ret (a : α)
  | exit (context : List String) (err : GoError)
  deriving DecidableEq

/-! ## Constants and data model (lines 14-58) -/

/-- The mode of created directories and files, `0775`. -/
def permission : Nat := 0o775

/-- The working directory. -/
def directory : String := ".realize"

/-- The default configuration file name. -/
def file : String := "realize.yaml"

/-- The default name of the outputs resource. -/
def fileOut : String := "outputs.log"

/-- The default name of the errors resource. -/
def fileErr : String := "errors.log"

/-- The default name of the logs resource. -/
def fileLog : String := "logs.log"

/-- Resource status and file name. -/
structure Resource where
  Status : Bool
  Name : String
  deriving DecidableEq

/-- The files generated by realize. -/
structure Files where
  Clean : Bool
  Outputs : Resource
  Logs : Resource
  Errors : Resource
  deriving DecidableEq

/-- Forced polling and its interval (`time.Duration`, an integer). -/
structure Legacy where
  Force : Bool
  Interval : Int
  deriving DecidableEq

/-- The general settings and options. -/
structure Settings where
  file : String
  Files : Files
  Legacy : Legacy
  FileLimit : Int
  Recovery : Bool
  deriving DecidableEq

/-! ## Operations (lines 78-162) -/

namespace Settings

/-- Delete realize folder (lines 79-85). -/
def del (_s : Settings) (fs : FS) (d : Path) : FS × Option GoError :=
  let err := os.Stat fs d
  if !os.IsNotExist err then os.RemoveAll fs d
  else (fs, err)

/-- Fatal prints a fatal error with its additional messages (lines 137-143):
with a non-nil error the process ends in both branches, the first one also
printing the messages. -/
def fatal (_s : Settings) (err : Option GoError) (msg : List String) : Outcome Unit :=
  match err with
  | some e => if msg.length > 0 then .exit msg e else .exit [] e
  | none => .ret ()

/-- Validate checks a fatal error (lines 88-93): `s.fatal(err, "")` when the
error is not nil, and nil as the result. -/
def validate (s : Settings) (err : Option GoError) : Outcome (Option GoError) :=
  match err with
  | some _ =>
    match s.fatal err [""] with
    | .exit context e => .exit context e
    | .ret _ => .ret none
  | none => .ret none

/-- Stream returns the bytes of a given file (lines 126-134). -/
def stream (s : Settings) (fs : FS) (file : Path) : Outcome (Bytes × Option GoError) :=
  match os.Stat fs file with
  | some err => .ret ([], some err)
  | none =>
    match ioutil.ReadFile fs file with
    | (content, err) =>
      match s.validate err with
      | .exit context e => .exit context e
      | .ret _ => .ret (content, err)

/-- The variable `localConfigPath` of `read` once lines 97-102 have run. -/
def localConfigPath (s : Settings) (fs : FS) : Path :=
  let path := filepath.Join [[directory], [s.file]]
  if os.Stat fs path = none then path else [s.file]

/-- Read from config file (lines 96-109).  The first component of the result is
the value `out` holds afterwards. -/
def read {α : Type} (s : Settings) (yaml : Codec α) (fs : FS) (out : α) :
    Outcome (α × Option GoError) :=
  match s.stream fs (s.localConfigPath fs) with
  | .exit context e => .exit context e
  | .ret (content, none) =>
    match yaml.Unmarshal content out with
    | (out1, err) => .ret (out1, err.map GoError.yaml)
  | .ret (_, some err) => .ret (out, some err)

/-- Write a file (lines 146-149). -/
def write (s : Settings) (fs : FS) (name : Path) (data : Bytes) :
    Outcome (FS × Option GoError) :=
  match ioutil.WriteFile fs name data permission with
  | (fs1, err) =>
    match s.validate err with
    | .exit context e => .exit context e
    | .ret r => .ret (fs1, r)

/-- Record creates the yaml config file (lines 112-123). -/
def record {α : Type} (s : Settings) (yaml : Codec α) (fs : FS) (out : α) :
    Outcome (FS × Option GoError) :=
  match yaml.Marshal out with
  | (_, some err) => .ret (fs, some (.yaml err))
  | (y, none) =>
    if os.IsNotExist (os.Stat fs [directory]) then
      match os.Mkdir fs [directory] permission with
      | (fs1, some _) => s.write fs1 [s.file] y
      | (fs1, none) => s.write fs1 (filepath.Join [[directory], [s.file]]) y
    else s.write fs (filepath.Join [[directory], [s.file]]) y

/-- Create a new file and return its pointer (lines 152-162). -/
def create (s : Settings) (fs : FS) (path : Path) (name : String) :
    Outcome (FS × Option os.File) :=
  let file :=
    if os.Stat fs [directory] = none then filepath.Join [path, [directory], [name]]
    else filepath.Join [path, [name]]
  match os.OpenFile fs file [Flag.O_APPEND, Flag.O_WRONLY, Flag.O_CREATE, Flag.O_SYNC]
      permission with
  | (fs1, out, err) =>
    match s.validate err with
    | .exit context e => .exit context e
    | .ret _ => .ret (fs1, out)

/-- The state and the path at which `record` issues its write (lines 117-122):
the state after the attempt to create the working directory, if one is made,
and the bare name when that attempt fails, the namespaced path otherwise. -/
def recordTarget (s : Settings) (fs : FS) : FS × Path :=
  if os.IsNotExist (os.Stat fs [directory]) then
    match os.Mkdir fs [directory] permission with
    | (fs1, some _) => (fs1, [s.file])
    | (fs1, none) => (fs1, filepath.Join [[directory], [s.file]])
  else (fs, filepath.Join [[directory], [s.file]])

/-- The variable `file` of `create` once lines 153-158 have run. -/
def createFile (fs : FS) (path : Path) (name : String) : Path :=
  if os.Stat fs [directory] = none then filepath.Join [path, [directory], [name]]
  else filepath.Join [path, [name]]

end Settings

/-! ## Round trip through the encoder -/

/-- Equality in all populated fields, by the yaml tags of lines 32-58: a field
tagged `omitempty` is compared when it is not empty in `v`, the `legacy`
section always, and the unexported `file` never. -/
def populatedEq (v w : Settings) : Prop :=
  (v.Files.Clean = true → w.Files.Clean = true) ∧
  (v.Files.Outputs ≠ ⟨false, ""⟩ → w.Files.Outputs = v.Files.Outputs) ∧
  (v.Files.Logs ≠ ⟨false, ""⟩ → w.Files.Logs = v.Files.Logs) ∧
  (v.Files.Errors ≠ ⟨false, ""⟩ → w.Files.Errors = v.Files.Errors) ∧
  w.Legacy = v.Legacy ∧
  (v.FileLimit ≠ 0 → w.FileLimit = v.FileLimit) ∧
  (v.Recovery = true → w.Recovery = true)

/-- The decoder inverts the encoder: what `Marshal` produced for `v` is decoded
without error, into any target, to a value equal to `v` in all populated
fields. -/
def Codec.Inverts (yaml : Codec Settings) : Prop :=
  ∀ (v out : Settings) (y : Bytes), yaml.Marshal v = (y, none) →
    ∃ w, yaml.Unmarshal y out = (w, none) ∧ populatedEq v w

/-! ## Concrete inputs -/

/-- The empty `Files` section. -/
def noFiles : Files := ⟨false, ⟨false, ""⟩, ⟨false, ""⟩, ⟨false, ""⟩⟩

/-- A small encoder and decoder to run the operations on concrete inputs.  A
document is the four numbers flimit, recovery, force, interval; values with
a files section or a negative number are refused.  Like yaml.v2, whose
`Unmarshal` on a type mismatch returns a `*yaml.TypeError` with the target
partly filled, the decoder stores what it has read before it reports an
error. -/
def fieldCodec : Codec Settings where
  Marshal v :=
    if v.Files = noFiles ∧ 0 ≤ v.FileLimit ∧ 0 ≤ v.Legacy.Interval then
      ([v.FileLimit.toNat, if v.Recovery then 1 else 0, if v.Legacy.Force then 1 else 0,
        v.Legacy.Interval.toNat], none)
    else ([], some "unsupported value")
  Unmarshal data out :=
    match data with
    | [] => (out, some "missing flimit")
    | [a] => ({ out with FileLimit := a }, some "missing recovery")
    | [a, b] => ({ out with FileLimit := a, Recovery := decide (b ≠ 0) }, some "missing legacy")
    | [a, b, c] =>
      ({ out with FileLimit := a, Recovery := decide (b ≠ 0),
                  Legacy := ⟨decide (c ≠ 0), out.Legacy.Interval⟩ }, some "missing interval")
    | a :: b :: c :: d :: rest =>
      ({ out with FileLimit := a, Recovery := decide (b ≠ 0), Legacy := ⟨decide (c ≠ 0), d⟩ },
        if rest = [] then none else some "trailing data")

/-- A writable directory with nothing in it. -/
def emptyFS : FS := ⟨true, fun _ => none⟩

/-- A writable directory that holds an empty working directory. -/
def withWorkingDir : FS :=
  ⟨true, fun p => if p = [directory] then some (.dir true) else none⟩

/-- The path `.realize` is occupied by a regular file; a bare configuration
file exists. -/
def occupiedFS : FS :=
  ⟨true, fun p =>
    if p = [directory] then some (.file [])
    else if p = [file] then some (.file [1, 2, 3])
    else none⟩

/-- A read-only directory with nothing in it. -/
def readOnlyFS : FS := ⟨false, fun _ => none⟩

/-- A read-only directory that holds a bare configuration file. -/
def readOnlyLegacyFS : FS :=
  ⟨false, fun p => if p = [file] then some (.file [1, 2, 3]) else none⟩

/-- Both the namespaced and the bare configuration file, with different
content. -/
def bothFS : FS :=
  ⟨true, fun p =>
    if p = [directory] then some (.dir true)
    else if p = [directory, file] then some (.file [10, 1, 0, 0])
    else if p = [file] then some (.file [3, 0, 0, 0])
    else none⟩

/-- A bare configuration file only. -/
def legacyFS : FS :=
  ⟨true, fun p => if p = [file] then some (.file [3, 0, 0, 0]) else none⟩

/-- A bare configuration file that ends after its first field. -/
def truncatedFS : FS :=
  ⟨true, fun p => if p = [file] then some (.file [7]) else none⟩

/-- The namespaced configuration path is a directory. -/
def dirAsConfigFS : FS :=
  ⟨true, fun p =>
    if p = [directory] then some (.dir true)
    else if p = [directory, file] then some (.dir true)
    else none⟩

/-- The namespaced configuration path is a directory, and a bare configuration
file exists. -/
def dirOverLegacyFS : FS :=
  ⟨true, fun p =>
    if p = [directory] then some (.dir true)
    else if p = [directory, file] then some (.dir true)
    else if p = [file] then some (.file [3, 0, 0, 0])
    else none⟩

/-- A project directory `proj` with a working directory and an outputs file of
its own; the directory the process runs in has no working directory. -/
def projectFS : FS :=
  ⟨true, fun p =>
    if p = ["proj"] then some (.dir true)
    else if p = ["proj", directory] then some (.dir true)
    else if p = ["proj", fileOut] then some (.file [104, 105])
    else none⟩

/-- The zero settings, for the default file name. -/
def settings0 : Settings := ⟨file, noFiles, ⟨false, 0⟩, 0, false⟩

/-- The value `Settings{FileLimit: 10, Recovery: true}`, for the default file
name. -/
def settings10 : Settings := ⟨file, noFiles, ⟨false, 0⟩, 10, true⟩

/-! ## Random token generator: proofs -/

theorem set_replicate_append (z c : Char) (done : List Char) (j : Nat) :
    (List.replicate (j + 1) z ++ done).set j c = List.replicate j z ++ c :: done := by
  induction j with
  | zero => simp
  | succ j ih => 
    rw [List.replicate_succ, List.cons_append, List.set_cons_succ, ih]
    simp [List.replicate_succ]

theorem randomLoop_done (src : Source) (fuel next cache remain : Nat) (b : List Char) :
    randomLoop src fuel next (-1) cache remain b = some b := by
  cases fuel <;> simp [randomLoop]

theorem randomLoop_step (src : Source) (f next cache remain j : Nat) (done : List Char) :
    randomLoop src (f + 1) next (((j + 1 : Nat) : Int) - 1) cache remain
        (List.replicate (j + 1) (Char.ofNat 0) ++ done) =
      if (if remain = 0 then Int63 src next else cache) % 64 < 52 then
        randomLoop src f (if remain = 0 then next + 1 else next) ((j : Int) - 1)
          ((if remain = 0 then Int63 src next else cache) / 64)
          ((if remain = 0 then letterIdxMax else remain) - 1)
          (List.replicate j (Char.ofNat 0) ++
            letterOf ((if remain = 0 then Int63 src next else cache) % 64) :: done)
      else
        randomLoop src f (if remain = 0 then next + 1 else next) (((j + 1 : Nat) : Int) - 1)
          ((if remain = 0 then Int63 src next else cache) / 64)
          ((if remain = 0 then letterIdxMax else remain) - 1)
          (List.replicate (j + 1) (Char.ofNat 0) ++ done) := by
  have hmask : ∀ x : Nat, x &&& letterIdxMask = x % 64 := by
    intro x
    have := Nat.and_pow_two_sub_one_eq_mod x 6
    simpa [letterIdxMask, letterIdxBits] using this
  have hshift : ∀ x : Nat, x >>> letterIdxBits = x / 64 := by
    intro x
    rw [Nat.shiftRight_eq_div_pow]; rfl
  have hlen : letterBytes.length = 52 := by decide
  have hi : (((j + 1 : Nat) : Int) - 1) = (j : Int) := by push_cast; ring
  rw [randomLoop]
  simp only [hmask, hshift, hlen, hi, letterOf]
  have hj : (j : Int) ≥ 0 := Int.ofNat_nonneg j
  simp only [hj, if_true, Int.toNat_ofNat, set_replicate_append]

theorem pending_cons (src : Source) (next cache remain t : Nat)
    (hne : cacheGroups cache remain ++ futureGroups src next t ≠ []) :
    ∃ t1, cacheGroups cache remain ++ futureGroups src next t =
      (if remain = 0 then Int63 src next else cache) % 64 ::
        (cacheGroups ((if remain = 0 then Int63 src next else cache) / 64)
            ((if remain = 0 then letterIdxMax else remain) - 1) ++
          futureGroups src (if remain = 0 then next + 1 else next) t1) := by
  cases remain with
  | zero =>
    cases t with
    | zero => simp [cacheGroups, futureGroups] at hne
    | succ t => exact ⟨t, by simp [cacheGroups, futureGroups, letterIdxMax, letterIdxBits]⟩
  | succ r => exact ⟨t, by simp [cacheGroups]⟩

theorem randomLoop_fill (src : Source) :
    ∀ (fuel next cache remain t j : Nat) (done : List Char),
      (cacheGroups cache remain ++ futureGroups src next t).length ≤ fuel →
      j ≤ ((cacheGroups cache remain ++ futureGroups src next t).filter
            (fun g => g < 52)).length →
      randomLoop src fuel next ((j : Int) - 1) cache remain
          (List.replicate j (Char.ofNat 0) ++ done) =
        some (((((cacheGroups cache remain ++ futureGroups src next t).filter
            (fun g => g < 52)).take j).map letterOf).reverse ++ done) := by
  intro fuel
  induction fuel with
  | zero =>
    intro next cache remain t j done hlen hj
    have hnil : cacheGroups cache remain ++ futureGroups src next t = [] :=
      List.length_eq_zero.mp (Nat.le_zero.mp hlen)
    rw [hnil] at hj ⊢
    have hj0 : j = 0 := by simpa using hj
    subst hj0
    simpa using randomLoop_done src 0 next cache remain done
  | succ f ih =>
    intro next cache remain t j done hlen hj
    cases j with
    | zero => simpa using randomLoop_done src (f + 1) next cache remain done
    | succ j =>
      have hne : cacheGroups cache remain ++ futureGroups src next t ≠ [] := by
        intro h
        rw [h] at hj
        simp at hj
      obtain ⟨t1, hP⟩ := pending_cons src next cache remain t hne
      rw [randomLoop_step]
      rw [hP] at hlen hj ⊢
      simp only [List.length_cons, Nat.add_le_add_iff_right] at hlen
      by_cases hg : (if remain = 0 then Int63 src next else cache) % 64 < 52
      · rw [if_pos hg]
        rw [List.filter_cons_of_pos (by simpa using hg)] at hj ⊢
        simp only [List.length_cons, Nat.add_le_add_iff_right] at hj
        rw [ih _ _ _ t1 j _ hlen hj]
        simp
      · rw [if_neg hg]
        rw [List.filter_cons_of_neg (by simpa using hg)] at hj ⊢
        exact ih _ _ _ t1 (j + 1) done hlen hj

theorem cacheGroups_length (cache r : Nat) : (cacheGroups cache r).length = r := by
  induction r generalizing cache with
  | zero => rfl
  | succ r ih => simp [cacheGroups, ih]

theorem futureGroups_length (src : Source) (next t : Nat) :
    (futureGroups src next t).length = letterIdxMax * t := by
  induction t generalizing next with
  | zero => rfl
  | succ t ih => simp [futureGroups, ih, cacheGroups_length]; ring

theorem cacheGroups_eq_map (cache r : Nat) :
    cacheGroups cache r = (List.range r).map (fun j => cache / 64 ^ j % 64) := by
  induction r generalizing cache with
  | zero => rfl
  | succ r ih =>
    rw [List.range_succ_eq_map, List.map_cons, List.map_map, cacheGroups, ih]
    simp [Function.comp_def, pow_succ, Nat.div_div_eq_div_mul, Nat.mul_comm]

theorem futureGroups_eq_flatMap (src : Source) (next t : Nat) :
    futureGroups src next t =
      (List.range' next t).flatMap (fun k => groupsOfDraw (Int63 src k)) := by
  induction t generalizing next with
  | zero => rfl
  | succ t ih =>
    rw [List.range'_succ, List.flatMap_cons, futureGroups, ih, groupsOfDraw, cacheGroups_eq_map]

theorem drawnGroups_eq_future (src : Source) (m : Nat) :
    drawnGroups src m = futureGroups src 0 m := by
  rw [futureGroups_eq_flatMap, drawnGroups, List.range_eq_range']

theorem letterOf_mem (g : Nat) (hg : g < 52) :
    letterBytes.data[g]? = some (letterOf g) ∧ letterOf g ∈ letterBytes.data := by
  have hlen : letterBytes.data.length = 52 := by rfl
  have h : g < letterBytes.data.length := by omega
  unfold letterOf
  rw [List.getD_eq_getElem _ _ h, List.getElem?_eq_getElem h]
  exact ⟨rfl, List.getElem_mem h⟩

theorem randomLoop_inv (src : Source) :
    ∀ (fuel next cache remain j : Nat) (done r : List Char),
      randomLoop src fuel next ((j : Int) - 1) cache remain
          (List.replicate j (Char.ofNat 0) ++ done) = some r →
      r.length = j + done.length ∧ ∀ c ∈ r, c ∈ done ∨ c ∈ letterBytes.data := by
  intro fuel
  induction fuel with
  | zero =>
    intro next cache remain j done r h
    cases j with
    | zero =>
      have := randomLoop_done src 0 next cache remain done
      simp only [List.replicate_zero, List.nil_append, Nat.cast_zero, zero_sub] at h
      rw [this] at h
      cases h
      exact ⟨by simp, fun c hc => Or.inl hc⟩
    | succ j =>
      have hi : (((j + 1 : Nat) : Int) - 1) ≥ 0 := by push_cast; omega
      simp [randomLoop, hi] at h
  | succ f ih =>
    intro next cache remain j done r h
    cases j with
    | zero =>
      have := randomLoop_done src (f + 1) next cache remain done
      simp only [List.replicate_zero, List.nil_append, Nat.cast_zero, zero_sub] at h
      rw [this] at h
      cases h
      exact ⟨by simp, fun c hc => Or.inl hc⟩
    | succ j =>
      rw [randomLoop_step] at h
      by_cases hg : (if remain = 0 then Int63 src next else cache) % 64 < 52
      · rw [if_pos hg] at h
        obtain ⟨hl, hm⟩ := ih _ _ _ j _ r h
        refine ⟨by simp at hl; omega, fun c hc => ?_⟩
        rcases hm c hc with hd | hd
        · rcases List.mem_cons.mp hd with rfl | hd
          · exact Or.inr (letterOf_mem _ hg).2
          · exact Or.inl hd
        · exact Or.inr hd
      · rw [if_neg hg] at h
        exact ih _ _ _ (j + 1) done r h

theorem random_eq_of_accepted (src : Source) (n m fuel : Nat)
    (hacc : n ≤ (acceptedGroups src m).length) (hfuel : letterIdxMax * m ≤ fuel) :
    random src fuel n =
      some (String.mk ((((acceptedGroups src m).take n).map letterOf).reverse)) := by
  cases m with
  | zero =>
    have hn : n = 0 := by simpa [acceptedGroups, drawnGroups] using hacc
    subst hn
    have := randomLoop_done src fuel 1 (Int63 src 0) letterIdxMax []
    simp [random, this]
  | succ m =>
    have hP : drawnGroups src (m + 1) =
        cacheGroups (Int63 src 0) letterIdxMax ++ futureGroups src 1 m := by
      rw [drawnGroups_eq_future]; rfl
    have hlen : (cacheGroups (Int63 src 0) letterIdxMax ++ futureGroups src 1 m).length
        ≤ fuel := by
      rw [List.length_append, cacheGroups_length, futureGroups_length]
      rw [Nat.mul_succ] at hfuel; omega
    rw [acceptedGroups, hP] at hacc ⊢
    have := randomLoop_fill src fuel 1 (Int63 src 0) letterIdxMax m n [] hlen hacc
    simp only [List.append_nil] at this
    simp [random, this]

/-- C5: `random(n)` of length zero is the empty string; whenever the loop
finishes, the result has exactly `n` characters, each one of the 52 letters
of `letterBytes` (a-z, A-Z); and the loop does finish, within `10 * m`
iterations, once the first `m` draws hold `n` groups below 52. -/
theorem random_length_alphabet (src : Source) (fuel n : Nat) :
    random src fuel 0 = some "" ∧
    (∀ s, random src fuel n = some s →
      s.length = n ∧ ∀ c ∈ s.data, c ∈ letterBytes.data ∧ c.isAlpha = true) ∧
    (∀ m, n ≤ (acceptedGroups src m).length → letterIdxMax * m ≤ fuel →
      (random src fuel n).isSome = true) := by
  refine ⟨?_, ?_, ?_⟩
  · have := randomLoop_done src fuel 1 (Int63 src 0) letterIdxMax []
    simp only [random, List.replicate_zero, Nat.cast_zero, zero_sub, this]
    rfl
  · intro s h
    unfold random at h
    rcases hr : randomLoop src fuel 1 ((n : Int) - 1) (Int63 src 0) letterIdxMax
        (List.replicate n (Char.ofNat 0)) with _ | r
    · rw [hr] at h; simp at h
    · rw [hr] at h
      simp only [Option.map_some', Option.some.injEq] at h
      subst h
      have hr2 : randomLoop src fuel 1 ((n : Int) - 1) (Int63 src 0) letterIdxMax
          (List.replicate n (Char.ofNat 0) ++ []) = some r := by simpa using hr
      obtain ⟨hl, hm⟩ := randomLoop_inv src fuel 1 _ _ n [] r hr2
      refine ⟨by simpa [String.length] using hl, fun c hc => ?_⟩
      have hc2 : c ∈ letterBytes.data := by
        rcases hm c hc with h0 | h0
        · simp at h0
        · exact h0
      have hall : ∀ c ∈ letterBytes.data, c.isAlpha = true := by decide
      exact ⟨hc2, hall c hc2⟩
  · intro m hacc hfuel
    rw [random_eq_of_accepted src n m fuel hacc hfuel]
    rfl

/-- C10: rejection sampling.  Split each draw into its 10 lowest 6-bit groups
from the least significant end, discard the groups 52..63 and let
`g_1, g_2, ...` be the groups that are left.  When the first `m` draws leave
at least `n` groups, `random(n)` finishes (fuel `10 * m` is enough) and the
character of its result at index `n - k` is `letterBytes[g_k]`, for every
`k` from 1 to `n`. -/
theorem random_rejection_sampling (src : Source) (n m fuel : Nat)
    (hacc : n ≤ (acceptedGroups src m).length) (hfuel : letterIdxMax * m ≤ fuel) :
    ∃ s, random src fuel n = some s ∧ s.length = n ∧
      ∀ k, 1 ≤ k → k ≤ n →
        ∃ g, (acceptedGroups src m)[k - 1]? = some g ∧ g < 52 ∧
          s.data[n - k]? = letterBytes.data[g]? := by
  refine ⟨_, random_eq_of_accepted src n m fuel hacc hfuel, ?_, ?_⟩
  · simp [String.length, Nat.min_eq_left hacc]
  · intro k hk1 hkn
    have hlt : k - 1 < (acceptedGroups src m).length := by omega
    refine ⟨(acceptedGroups src m)[k - 1], List.getElem?_eq_getElem hlt, ?_, ?_⟩
    · have hmem : (acceptedGroups src m)[k - 1] ∈ acceptedGroups src m :=
        List.getElem_mem hlt
      unfold acceptedGroups at hmem
      simpa using (List.mem_filter.mp hmem).2
    · have hg : (acceptedGroups src m)[k - 1] < 52 := by
        have hmem : (acceptedGroups src m)[k - 1] ∈ acceptedGroups src m :=
          List.getElem_mem hlt
        unfold acceptedGroups at hmem
        simpa using (List.mem_filter.mp hmem).2
      rw [(letterOf_mem _ hg).1]
      have hlen : (((acceptedGroups src m).take n).map letterOf).length = n := by
        simp [Nat.min_eq_left hacc]
      show ((((acceptedGroups src m).take n).map letterOf).reverse)[n - k]? = _
      rw [List.getElem?_reverse (by rw [hlen]; omega), hlen]
      have hidx : n - 1 - (n - k) = k - 1 := by omega
      rw [hidx, List.getElem?_map, List.getElem?_take_of_lt (by omega),
        List.getElem?_eq_getElem hlt]
      rfl

/-- C5 at a concrete source: three letters from groups 63 (rejected), 1, 27, 0. -/
theorem random_length_alphabet_witness :
    random sampleSource 100 3 = some "aBb" ∧ ("aBb" : String).length = 3 ∧
      ∀ c ∈ ("aBb" : String).data, c ∈ letterBytes.data ∧ c.isAlpha = true :=
  ⟨by decide, (random_length_alphabet sampleSource 100 3).2.1 "aBb" (by decide)⟩

/-- C10 at a concrete source: one draw with the groups 63, 1, 27, 0, ... -/
theorem random_rejection_sampling_witness :
    ∃ s, random sampleSource 10 3 = some s ∧ s.length = 3 ∧
      ∀ k, 1 ≤ k → k ≤ 3 →
        ∃ g, (acceptedGroups sampleSource 1)[k - 1]? = some g ∧ g < 52 ∧
          s.data[3 - k]? = letterBytes.data[g]? :=
  random_rejection_sampling sampleSource 3 1 10 (by decide) (by decide)

/-! ## Filesystem: proofs -/

theorem get_nil (fs : FS) : fs.get [] = some (.dir fs.cwdWritable) := by
  simp [FS.get]

theorem get_set (fs : FS) (p q : Path) (n : Option Node) (hq : q ≠ []) :
    (fs.set p n).get q = if q = p then n else fs.get q := by
  simp [FS.get, FS.set, hq]

theorem get_set_ne (fs : FS) (p q : Path) (n : Option Node) (h : q ≠ p) :
    (fs.set p n).get q = fs.get q := by
  by_cases hq : q = []
  · simp [FS.get, FS.set, hq]
  · simp [FS.get, FS.set, hq, h]

theorem walk_congr (fs fs1 : FS) :
    ∀ (cs : List String) (pre : Path),
      (∀ k, k ≤ cs.length → fs.get (pre ++ cs.take k) = fs1.get (pre ++ cs.take k)) →
      walk fs pre cs = walk fs1 pre cs := by
  intro cs
  induction cs with
  | nil =>
    intro pre h
    have := h 0 (Nat.le_refl _)
    simp only [List.take_nil, List.append_nil] at this
    simp [walk, this]
  | cons c cs ih =>
    intro pre h
    have h0 := h 0 (Nat.zero_le _)
    simp only [List.take_zero, List.append_nil] at h0
    have hrec : walk fs (pre ++ [c]) cs = walk fs1 (pre ++ [c]) cs := by
      apply ih
      intro k hk
      have := h (k + 1) (by simpa using hk)
      simpa using this
    simp [walk, h0, hrec]

theorem walk_append (fs : FS) :
    ∀ (cs : List String) (pre : Path) (c : String),
      walk fs pre (cs ++ [c]) =
        match walk fs pre cs with
        | .error e => .error e
        | .ok (.file _) => .error .ENOTDIR
        | .ok (.dir _) =>
          match fs.get (pre ++ cs ++ [c]) with
          | none => .error .ENOENT
          | some n => .ok n := by
  intro cs
  induction cs with
  | nil =>
    intro pre c
    simp only [List.nil_append, walk, List.append_nil]
    rcases fs.get pre with _ | n
    · rfl
    · cases n <;> rfl
  | cons d cs ih =>
    intro pre c
    simp only [List.cons_append, walk]
    rcases fs.get pre with _ | n
    · rfl
    · cases n with
      | file _ => rfl
      | dir _ =>
        simp only [List.append_eq]
        rw [ih]
        simp

theorem lookup_snoc (fs : FS) (p : Path) (c : String) :
    lookup fs (p ++ [c]) =
      match lookup fs p with
      | .error e => .error e
      | .ok (.file _) => .error .ENOTDIR
      | .ok (.dir _) =>
        match fs.get (p ++ [c]) with
        | none => .error .ENOENT
        | some n => .ok n := by
  unfold lookup
  rw [walk_append]
  simp

theorem lookup_nil (fs : FS) : lookup fs [] = .ok (.dir fs.cwdWritable) := by
  simp [lookup, walk, FS.get]

theorem lookup_set_unrelated (fs : FS) (p q : Path) (n : Option Node)
    (h : ¬ q <+: p) : lookup (fs.set q n) p = lookup fs p := by
  unfold lookup
  apply walk_congr
  intro k _
  simp only [List.nil_append]
  apply get_set_ne
  intro hEq
  exact h (hEq ▸ ( List.take_prefix k p))

theorem dropLast_append_getLast (p : Path) (hp : p ≠ []) :
    ∃ c, p = p.dropLast ++ [c] :=
  ⟨p.getLast hp, (List.dropLast_append_getLast hp).symm⟩

theorem dropLast_not_extended (p : Path) (hp : p ≠ []) : ¬ p <+: p.dropLast := by
  intro h
  have h1 := h.length_le
  have h2 : 0 < p.length := List.length_pos.mpr hp
  simp at h1
  omega

theorem lookup_set_snoc (fs : FS) (q : Path) (c : String) (n : Node) (w : Bool)
    (hpar : lookup fs q = .ok (.dir w)) :
    lookup (fs.set (q ++ [c]) (some n)) (q ++ [c]) = .ok n := by
  have hnp : ¬ (q ++ [c]) <+: q := by
    intro h
    have := h.length_le
    simp at this
  have hget : (fs.set (q ++ [c]) (some n)).get (q ++ [c]) = some n := by
    rw [get_set _ _ _ _ (by simp)]; simp
  rw [lookup_snoc, lookup_set_unrelated _ _ _ _ hnp, hpar]
  simp only
  rw [hget]

theorem lookup_set_self (fs : FS) (p : Path) (n : Node) (w : Bool) (hp : p ≠ [])
    (hpar : lookup fs p.dropLast = .ok (.dir w)) :
    lookup (fs.set p (some n)) p = .ok n := by
  obtain ⟨c, hc⟩ := dropLast_append_getLast p hp
  have key := lookup_set_snoc fs p.dropLast c n w hpar
  rw [← hc] at key
  exact key

theorem lookup_parent_of_ok (fs : FS) (p : Path) (n : Node) (hp : p ≠ [])
    (h : lookup fs p = .ok n) : ∃ w, lookup fs p.dropLast = .ok (.dir w) ∧ fs.get p = some n := by
  obtain ⟨c, hc⟩ := dropLast_append_getLast p hp
  rw [hc, lookup_snoc] at h
  rcases hl : lookup fs p.dropLast with e | m
  · rw [hl] at h; simp at h
  · rw [hl] at h
    cases m with
    | file _ => simp at h
    | dir w =>
      refine ⟨w, rfl, ?_⟩
      simp only at h
      rw [hc]
      rcases hg : fs.get (p.dropLast ++ [c]) with _ | m
      · rw [hg] at h; simp at h
      · rw [hg] at h
        simp only [Except.ok.injEq] at h
        rw [h]



theorem WriteFile_eq (fs : FS) (p : Path) (y : Bytes) (perm : Nat) :
    ioutil.WriteFile fs p y perm =
      match lookup fs p with
      | .ok (.dir _) => (fs, some (.sys .EISDIR))
      | .ok (.file _) => ((fs.set p (some (.file []))).set p (some (.file y)), none)
      | .error .ENOENT =>
        match lookup fs p.dropLast with
        | .ok (.dir true) => ((fs.set p (some (.file []))).set p (some (.file y)), none)
        | .ok (.dir false) => (fs, some (.sys .EACCES))
        | .ok (.file _) => (fs, some (.sys .ENOTDIR))
        | .error e => (fs, some (.sys e))
      | .error e => (fs, some (.sys e)) := by
  have hwrite : p ≠ [] →
      os.File.Write ⟨p, [Flag.O_WRONLY, Flag.O_CREATE, Flag.O_TRUNC]⟩
        (fs.set p (some (.file []))) y =
        ((fs.set p (some (.file []))).set p (some (.file y)), none) := by
    intro hp
    have hget : (fs.set p (some (.file []))).get p = some (.file []) := by
      rw [get_set _ _ _ _ hp]; simp
    simp [os.File.Write, hget]
  unfold ioutil.WriteFile os.OpenFile
  rcases hl : lookup fs p with e | n
  · cases e <;> simp only []
    rcases hd : lookup fs p.dropLast with e2 | n2
    · simp
    · cases n2 with
      | file _ => simp
      | dir w =>
        cases w
        · simp
        · have hp : p ≠ [] := by
            intro h0
            rw [h0, lookup_nil] at hl
            cases hl
          simp [hwrite hp]
  · cases n with
    | dir _ => simp
    | file d =>
      have hp : p ≠ [] := by
        intro h0
        rw [h0, lookup_nil] at hl
        cases hl
      simp [hwrite hp]

theorem WriteFile_ok (fs fs1 : FS) (p : Path) (y : Bytes) (perm : Nat)
    (h : ioutil.WriteFile fs p y perm = (fs1, none)) :
    p ≠ [] ∧ fs1 = (fs.set p (some (.file []))).set p (some (.file y)) ∧
      (∃ w, lookup fs p.dropLast = .ok (.dir w)) ∧
      ((∃ d, lookup fs p = .ok (.file d)) ∨
        (lookup fs p = .error .ENOENT ∧ lookup fs p.dropLast = .ok (.dir true))) := by
  have hp : p ≠ [] := by
    intro h0
    rw [WriteFile_eq, h0, lookup_nil] at h
    simp at h
  rw [WriteFile_eq] at h
  rcases hl : lookup fs p with e | n
  · rw [hl] at h
    cases e <;> simp only [Prod.mk.injEq] at h <;> try (exact absurd h.2 (by simp))
    rcases hd : lookup fs p.dropLast with e2 | n2
    · rw [hd] at h; simp at h
    · rw [hd] at h
      cases n2 with
      | file _ => simp at h
      | dir w =>
        cases w
        · simp at h
        · exact ⟨hp, (congrArg Prod.fst h).symm, ⟨true, rfl⟩, Or.inr ⟨rfl, rfl⟩⟩
  · rw [hl] at h
    cases n with
    | dir _ => simp at h
    | file d =>
      simp only [Prod.mk.injEq, and_true] at h
      obtain ⟨w, hw, _⟩ := lookup_parent_of_ok fs p _ hp hl
      exact ⟨hp, h.symm, ⟨w, hw⟩, Or.inl ⟨d, rfl⟩⟩

theorem WriteFile_ok_lookup (fs fs1 : FS) (p : Path) (y : Bytes) (perm : Nat)
    (h : ioutil.WriteFile fs p y perm = (fs1, none)) :
    lookup fs1 p = .ok (.file y) ∧ ∀ q, ¬ p <+: q → lookup fs1 q = lookup fs q := by
  obtain ⟨hp, hfs, ⟨w, hw⟩, _⟩ := WriteFile_ok fs fs1 p y perm h
  subst hfs
  constructor
  · apply lookup_set_self _ _ _ w hp
    rw [lookup_set_unrelated _ _ _ _ (dropLast_not_extended p hp), hw]
  · intro q hq
    rw [lookup_set_unrelated _ _ _ _ hq, lookup_set_unrelated _ _ _ _ hq]

theorem write_eq (s : Settings) (fs : FS) (p : Path) (y : Bytes) :
    s.write fs p y =
      match ioutil.WriteFile fs p y permission with
      | (fs1, none) => .ret (fs1, none)
      | (_, some e) => .exit [""] e := by
  unfold Settings.write
  rcases ioutil.WriteFile fs p y permission with ⟨fs1, _ | e⟩ <;>
    simp [Settings.validate, Settings.fatal]

theorem record_eq_write {α : Type} (s : Settings) (yaml : Codec α) (fs : FS) (out : α)
    (y : Bytes) (hm : yaml.Marshal out = (y, none)) :
    s.record yaml fs out = s.write (s.recordTarget fs).1 (s.recordTarget fs).2 y := by
  unfold Settings.record Settings.recordTarget
  rw [hm]
  simp only
  by_cases hn : os.IsNotExist (os.Stat fs [directory]) = true
  · simp only [hn, if_true]
    rcases os.Mkdir fs [directory] permission with ⟨fs1, _ | e⟩ <;> rfl
  · simp only [hn]
    rfl

theorem stream_file (s : Settings) (fs : FS) (p : Path) (data : Bytes)
    (h : lookup fs p = .ok (.file data)) : s.stream fs p = .ret (data, none) := by
  simp [Settings.stream, os.Stat, ioutil.ReadFile, h, Settings.validate]

theorem lookup_congr (fs fs1 : FS) (p : Path)
    (h : ∀ r, r <+: p → fs.get r = fs1.get r) : lookup fs p = lookup fs1 p := by
  unfold lookup
  apply walk_congr
  intro k _
  simp only [List.nil_append]
  exact h _ ( List.take_prefix k p)

theorem lookup_single (fs : FS) (c : String) :
    lookup fs [c] = match fs.get [c] with
      | none => .error .ENOENT
      | some n => .ok n := by
  have := lookup_snoc fs [] c
  simpa [lookup_nil] using this

theorem stream_eq (s : Settings) (fs : FS) (p : Path) :
    s.stream fs p =
      match lookup fs p with
      | .ok (.file data) => .ret (data, none)
      | .ok (.dir _) => .exit [""] (.sys .EISDIR)
      | .error e => .ret ([], some (.sys e)) := by
  unfold Settings.stream os.Stat ioutil.ReadFile
  rcases lookup fs p with e | n
  · rfl
  · cases n <;> simp [Settings.validate, Settings.fatal]

theorem localConfigPath_eq (s : Settings) (fs : FS) :
    s.localConfigPath fs =
      match lookup fs [directory, s.file] with
      | .ok _ => [directory, s.file]
      | .error _ => [s.file] := by
  unfold Settings.localConfigPath os.Stat filepath.Join
  simp only [List.flatten, List.append_nil, List.singleton_append]
  rcases lookup fs [directory, s.file] with e | n <;> simp

theorem read_eq {α : Type} (s : Settings) (yaml : Codec α) (fs : FS) (out : α) :
    s.read yaml fs out =
      match s.stream fs (s.localConfigPath fs) with
      | .exit context e => .exit context e
      | .ret (content, none) =>
        .ret ((yaml.Unmarshal content out).1, (yaml.Unmarshal content out).2.map GoError.yaml)
      | .ret (_, some err) => .ret (out, some err) := by
  unfold Settings.read
  rcases s.stream fs (s.localConfigPath fs) with ⟨content, _ | err⟩ | ⟨context, e⟩ <;> rfl

/-- C6, amended: `stream(name)` returns the error of the existence check to
the caller, and that error is not-found when the parent is a directory with
no entry of that name; when the existence check passes and reading the
bytes fails, the process ends with that error (nothing is returned); when
both steps succeed the result is exactly the bytes of the file and no
error. -/
theorem stream_outcomes (s : Settings) (fs : FS) (name : Path) :
    (∀ e, lookup fs name = .error e → s.stream fs name = .ret ([], some (.sys e))) ∧
    (∀ w, fs.get name = none → lookup fs name.dropLast = .ok (.dir w) →
      s.stream fs name = .ret ([], some (.sys .ENOENT))) ∧
    (∀ e, os.Stat fs name = none → (ioutil.ReadFile fs name).2 = some e →
      s.stream fs name = .exit [""] e) ∧
    (∀ data, lookup fs name = .ok (.file data) →
      ioutil.ReadFile fs name = (data, none) ∧ s.stream fs name = .ret (data, none)) := by
  refine ⟨?_, ?_, ?_, ?_⟩
  · intro e h
    rw [stream_eq, h]
  · intro w hget hpar
    have hne : name ≠ [] := by
      intro h0
      rw [h0, get_nil] at hget
      cases hget
    obtain ⟨c, hc⟩ := dropLast_append_getLast name hne
    have hl : lookup fs name = .error .ENOENT := by
      have := lookup_snoc fs name.dropLast c
      rw [← hc, hpar] at this
      simpa [hget] using this
    rw [stream_eq, hl]
  · intro e hstat hread
    rw [stream_eq]
    unfold os.Stat at hstat
    unfold ioutil.ReadFile at hread
    rcases hl : lookup fs name with e2 | n
    · rw [hl] at hstat; simp at hstat
    · rw [hl] at hread
      cases n with
      | file d => simp at hread
      | dir w =>
        simp only [Option.some.injEq] at hread
        rw [← hread]
  · intro data h
    exact ⟨by simp [ioutil.ReadFile, h], by rw [stream_eq, h]⟩

/-- C6, counterexample: the namespaced configuration path is a directory, so
the existence check passes and the read fails with `EISDIR`; `stream` ends
the process instead of returning that error. -/
theorem stream_read_failure_exits :
    os.Stat dirAsConfigFS [directory, file] = none ∧
    ioutil.ReadFile dirAsConfigFS [directory, file] = ([], some (.sys .EISDIR)) ∧
    settings0.stream dirAsConfigFS [directory, file] = .exit [""] (.sys .EISDIR) ∧
    settings0.stream dirAsConfigFS [directory, file] ≠ .ret ([], some (.sys .EISDIR)) := by
  decide

/-- C6, the amended statement at three concrete states. -/
theorem stream_outcomes_witness :
    settings0.stream emptyFS [file] = .ret ([], some (.sys .ENOENT)) ∧
    settings0.stream dirAsConfigFS [directory, file] = .exit [""] (.sys .EISDIR) ∧
    settings0.stream legacyFS [file] = .ret ([3, 0, 0, 0], none) :=
  ⟨(stream_outcomes settings0 emptyFS [file]).2.1 true (by decide) (by decide),
   (stream_outcomes settings0 dirAsConfigFS [directory, file]).2.2.1 _ (by decide) (by decide),
   ((stream_outcomes settings0 legacyFS [file]).2.2.2 _ (by decide)).2⟩

theorem Stat_eq_none_iff (fs : FS) (p : Path) :
    os.Stat fs p = none ↔ ∃ n, lookup fs p = .ok n := by
  unfold os.Stat
  rcases lookup fs p with e | n <;> simp

theorem read_cases {α : Type} (s : Settings) (yaml : Codec α) (fs : FS) (out : α) :
    s.read yaml fs out =
      match lookup fs [directory, s.file] with
      | .ok (.file data) =>
        .ret ((yaml.Unmarshal data out).1, (yaml.Unmarshal data out).2.map GoError.yaml)
      | .ok (.dir _) => .exit [""] (.sys .EISDIR)
      | .error _ =>
        match lookup fs [s.file] with
        | .ok (.file data) =>
          .ret ((yaml.Unmarshal data out).1, (yaml.Unmarshal data out).2.map GoError.yaml)
        | .ok (.dir _) => .exit [""] (.sys .EISDIR)
        | .error e => .ret (out, some (.sys e)) := by
  rw [read_eq, localConfigPath_eq]
  rcases h1 : lookup fs [directory, s.file] with e | n
  · simp only
    rw [stream_eq]
    rcases h2 : lookup fs [s.file] with e2 | n2
    · rfl
    · cases n2 <;> rfl
  · simp only
    rw [stream_eq, h1]
    cases n <;> rfl

/-- C4, amended: read path precedence.  `read` resolves to `.realize/<file>`
when the existence check passes there and to the bare `<file>` otherwise.
When a regular file is at `.realize/<file>`, `read` reads its bytes and
returns what the decoder makes of them, whatever the bare file holds; when
nothing can be found at `.realize/<file>` and a regular file is at the bare
`<file>`, `read` does so with the bytes of the bare file; when a directory
is at the path `read` resolved to, the process ends, also when a bare file
exists beside a directory at `.realize/<file>`. -/
theorem read_path_precedence {α : Type} (s : Settings) (yaml : Codec α) (fs : FS) (out : α) :
    (os.Stat fs (filepath.Join [[directory], [s.file]]) = none →
      s.localConfigPath fs = filepath.Join [[directory], [s.file]]) ∧
    (os.Stat fs (filepath.Join [[directory], [s.file]]) ≠ none →
      s.localConfigPath fs = [s.file]) ∧
    (∀ data, lookup fs (filepath.Join [[directory], [s.file]]) = .ok (.file data) →
      s.stream fs (s.localConfigPath fs) = .ret (data, none) ∧
      s.read yaml fs out =
        .ret ((yaml.Unmarshal data out).1, (yaml.Unmarshal data out).2.map GoError.yaml)) ∧
    (∀ e data, lookup fs (filepath.Join [[directory], [s.file]]) = .error e →
      lookup fs [s.file] = .ok (.file data) →
      s.stream fs (s.localConfigPath fs) = .ret (data, none) ∧
      s.read yaml fs out =
        .ret ((yaml.Unmarshal data out).1, (yaml.Unmarshal data out).2.map GoError.yaml)) ∧
    (∀ w, lookup fs (filepath.Join [[directory], [s.file]]) = .ok (.dir w) →
      s.read yaml fs out = .exit [""] (.sys .EISDIR)) ∧
    (∀ e w, lookup fs (filepath.Join [[directory], [s.file]]) = .error e →
      lookup fs [s.file] = .ok (.dir w) →
      s.read yaml fs out = .exit [""] (.sys .EISDIR)) := by
  have hj : filepath.Join [[directory], [s.file]] = [directory, s.file] := rfl
  rw [hj]
  refine ⟨?_, ?_, ?_, ?_, ?_, ?_⟩
  · intro h
    obtain ⟨n, hn⟩ := (Stat_eq_none_iff fs _).mp h
    rw [localConfigPath_eq, hn]
  · intro h
    rw [localConfigPath_eq]
    rcases hl : lookup fs [directory, s.file] with e | n
    · rfl
    · exact absurd ((Stat_eq_none_iff fs _).mpr ⟨n, hl⟩) h
  · intro data h
    have hs : s.stream fs (s.localConfigPath fs) = .ret (data, none) := by
      rw [localConfigPath_eq, h]
      exact stream_file s fs _ data h
    exact ⟨hs, by rw [read_eq, hs]⟩
  · intro e data he hb
    have hs : s.stream fs (s.localConfigPath fs) = .ret (data, none) := by
      rw [localConfigPath_eq, he]
      exact stream_file s fs _ data hb
    exact ⟨hs, by rw [read_eq, hs]⟩
  · intro w h
    rw [read_cases, h]
  · intro e w he hb
    rw [read_cases, he]
    simp only
    rw [hb]

/-- C4, counterexample: a directory is at `.realize/realize.yaml` and a valid
bare `realize.yaml` exists.  The existence check passes on the namespaced
path, so `read` does not fall back to the bare file; reading the directory
fails and the process ends. -/
theorem read_directory_at_namespaced_path_exits :
    os.Stat dirOverLegacyFS [directory, file] = none ∧
    lookup dirOverLegacyFS [directory, file] = .ok (.dir true) ∧
    lookup dirOverLegacyFS [file] = .ok (.file [3, 0, 0, 0]) ∧
    settings0.localConfigPath dirOverLegacyFS = [directory, file] ∧
    settings0.read fieldCodec dirOverLegacyFS settings0 = .exit [""] (.sys .EISDIR) := by
  decide

/-- C4, the amended statement at three concrete states: both files present,
the bare file only, and a directory at the namespaced path. -/
theorem read_path_precedence_witness :
    settings0.read fieldCodec bothFS settings0 = .ret (settings10, none) ∧
    settings0.read fieldCodec legacyFS settings0 =
      .ret ({ settings0 with FileLimit := 3 }, none) ∧
    settings0.read fieldCodec dirOverLegacyFS settings0 = .exit [""] (.sys .EISDIR) :=
  ⟨((read_path_precedence settings0 fieldCodec bothFS settings0).2.2.1 [10, 1, 0, 0]
      (by decide)).2,
   ((read_path_precedence settings0 fieldCodec legacyFS settings0).2.2.2.1 .ENOENT
      [3, 0, 0, 0] (by decide) (by decide)).2,
   (read_path_precedence settings0 fieldCodec dirOverLegacyFS settings0).2.2.2.2.1 true
      (by decide)⟩

/-- C7, amended: `read` returns a not-found error exactly when nothing exists
at `.realize/<file>` nor at the bare `<file>`; whenever `read` returns an
error of the filesystem, `out` is unchanged (the decoder is not called); an
error of the decoder comes with the value the decoder left in `out`. -/
theorem read_not_found {α : Type} (s : Settings) (yaml : Codec α) (fs : FS) (out : α) :
    ((∃ w, s.read yaml fs out = .ret (w, some (.sys .ENOENT))) ↔
      (existsAt fs (filepath.Join [[directory], [s.file]]) = false ∧
        existsAt fs [s.file] = false)) ∧
    (∀ w e, s.read yaml fs out = .ret (w, some (.sys e)) → w = out) ∧
    (∀ w t, s.read yaml fs out = .ret (w, some (.yaml t)) →
      ∃ data, s.stream fs (s.localConfigPath fs) = .ret (data, none) ∧
        yaml.Unmarshal data out = (w, some t)) := by
  have hj : filepath.Join [[directory], [s.file]] = [directory, s.file] := rfl
  rw [hj]
  have hyaml : ∀ (o : Option String) (e : Errno),
      o.map GoError.yaml ≠ some (GoError.sys e) := by
    intro o e
    cases o <;> simp
  refine ⟨⟨?_, ?_⟩, ?_, ?_⟩
  · rintro ⟨w, hw⟩
    rw [read_cases] at hw
    unfold existsAt
    rcases h1 : lookup fs [directory, s.file] with e | n
    · rw [h1] at hw
      simp only at hw
      rcases h2 : lookup fs [s.file] with e2 | n2
      · simp
      · rw [h2] at hw
        cases n2 with
        | file d =>
          simp only [Outcome.ret.injEq, Prod.mk.injEq] at hw
          exact absurd hw.2 (hyaml _ _)
        | dir _ => cases hw
    · rw [h1] at hw
      cases n with
      | file d =>
        simp only [Outcome.ret.injEq, Prod.mk.injEq] at hw
        exact absurd hw.2 (hyaml _ _)
      | dir _ => cases hw
  · rintro ⟨h1, h2⟩
    unfold existsAt at h1 h2
    rw [read_cases]
    rcases hl1 : lookup fs [directory, s.file] with e | n
    · rcases hl2 : lookup fs [s.file] with e2 | n2
      · have hs := lookup_single fs s.file
        rw [hl2] at hs
        rcases hg : fs.get [s.file] with _ | m
        · rw [hg] at hs
          simp only [Except.error.injEq] at hs
          exact ⟨out, by rw [hs]⟩
        · rw [hg] at hs; cases hs
      · rw [hl2] at h2; simp at h2
    · rw [hl1] at h1; simp at h1
  · intro w e hw
    rw [read_cases] at hw
    rcases h1 : lookup fs [directory, s.file] with e1 | n
    · rw [h1] at hw
      simp only at hw
      rcases h2 : lookup fs [s.file] with e2 | n2
      · rw [h2] at hw
        simp only [Outcome.ret.injEq, Prod.mk.injEq] at hw
        exact hw.1.symm
      · rw [h2] at hw
        cases n2 with
        | file d =>
          simp only [Outcome.ret.injEq, Prod.mk.injEq] at hw
          exact absurd hw.2 (hyaml _ _)
        | dir _ => cases hw
    · rw [h1] at hw
      cases n with
      | file d =>
        simp only [Outcome.ret.injEq, Prod.mk.injEq] at hw
        exact absurd hw.2 (hyaml _ _)
      | dir _ => cases hw
  · intro w t hw
    rw [read_eq] at hw
    rcases hst : s.stream fs (s.localConfigPath fs) with ⟨content, _ | err⟩ | ⟨context, e⟩
    · rw [hst] at hw
      simp only [Outcome.ret.injEq, Prod.mk.injEq] at hw
      refine ⟨content, rfl, ?_⟩
      rcases hu : yaml.Unmarshal content out with ⟨w1, o⟩
      rw [hu] at hw
      obtain ⟨hw1, hw2⟩ := hw
      cases o with
      | none => simp at hw2
      | some t1 =>
        simp only [Option.map_some', Option.some.injEq, GoError.yaml.injEq] at hw2
        have hw1b : w1 = w := hw1
        rw [hw1b, hw2]
    · rw [hst] at hw
      simp only [Outcome.ret.injEq, Prod.mk.injEq] at hw
      have hsys : ∃ e, err = .sys e := by
        rw [stream_eq] at hst
        rcases hl : lookup fs (s.localConfigPath fs) with e | n
        · rw [hl] at hst
          simp only [Outcome.ret.injEq, Prod.mk.injEq, Option.some.injEq] at hst
          exact ⟨e, hst.2.symm⟩
        · rw [hl] at hst
          cases n <;> simp at hst
      obtain ⟨e, he⟩ := hsys
      rw [he] at hw
      simp at hw
    · rw [hst] at hw
      cases hw

/-- C7, counterexample: the configuration file ends after its first field;
`read` returns the error of the decoder and `out` has changed (its
`FileLimit` is 7). -/
theorem read_decode_error_mutates_out :
    settings0.read fieldCodec truncatedFS settings0 =
      .ret ({ settings0 with FileLimit := 7 }, some (.yaml "missing recovery")) ∧
    ({ settings0 with FileLimit := 7 } : Settings) ≠ settings0 := by
  decide

/-- C7, the amended statement in an empty directory. -/
theorem read_not_found_witness :
    (∃ w, settings0.read fieldCodec emptyFS settings0 = .ret (w, some (.sys .ENOENT))) ∧
    (∀ w e, settings0.read fieldCodec emptyFS settings0 = .ret (w, some (.sys e)) →
      w = settings0) :=
  ⟨(read_not_found settings0 fieldCodec emptyFS settings0).1.mpr ⟨by decide, by decide⟩,
   (read_not_found settings0 fieldCodec emptyFS settings0).2.1⟩

theorem Stat_not_exist_iff (fs : FS) (p : Path) :
    os.IsNotExist (os.Stat fs p) = true ↔ lookup fs p = .error .ENOENT := by
  unfold os.Stat os.IsNotExist
  rcases lookup fs p with e | n
  · cases e <;> simp
  · simp

theorem RemoveAll_ok (fs fs1 : FS) (d : Path) (n : Node) (hl : lookup fs d = .ok n)
    (h : os.RemoveAll fs d = (fs1, none)) :
    d ≠ [] ∧ fs1 = { fs with entries := fun q => if d <+: q then none else fs.entries q } ∧
      lookup fs d.dropLast = .ok (.dir true) := by
  unfold os.RemoveAll at h
  by_cases hd : d = []
  · simp [hd] at h
  · simp only [hd, if_false, hl] at h
    rcases hp : lookup fs d.dropLast with e | m
    · rw [hp] at h; simp at h
    · rw [hp] at h
      cases m with
      | file _ => simp at h
      | dir w =>
        cases w
        · simp at h
        · exact ⟨hd, (congrArg Prod.fst h).symm, rfl⟩

/-- C1, amended: when `d` does not exist, `del(d)` changes nothing and returns
the not-exist error of its existence check; when `del(d)` returns nil, `d`
and everything under it are gone and nothing else has changed, so that a
second `del(d)` returns the not-exist error. -/
theorem del_absent_reports_not_exist (s : Settings) (fs : FS) (d : Path) :
    (os.Stat fs d = some (.sys .ENOENT) → s.del fs d = (fs, some (.sys .ENOENT))) ∧
    (∀ fs1, s.del fs d = (fs1, none) →
      (∀ q, fs1.get q = if d <+: q then none else fs.get q) ∧
      lookup fs1 d = .error .ENOENT ∧ s.del fs1 d = (fs1, some (.sys .ENOENT))) := by
  constructor
  · intro h
    simp [Settings.del, h, os.IsNotExist]
  · intro fs1 h
    unfold Settings.del at h
    simp only at h
    by_cases hn : os.IsNotExist (os.Stat fs d) = true
    · simp only [hn, Bool.not_true] at h
      have hl := (Stat_not_exist_iff fs d).mp hn
      simp [os.Stat, hl] at h
    · simp only [hn] at h
      have hr : os.RemoveAll fs d = (fs1, none) := by simpa using h
      rcases hl : lookup fs d with e | n
      · have hne : e ≠ .ENOENT := by
          intro he
          rw [he] at hl
          exact hn ((Stat_not_exist_iff fs d).mpr hl)
        unfold os.RemoveAll at hr
        by_cases hd : d = []
        · simp [hd] at hr
        · simp only [hd, if_false, hl] at hr
          cases e <;> simp at hr hne
      · obtain ⟨hd, hfs, hpar⟩ := RemoveAll_ok fs fs1 d n hl hr
        have hget : ∀ q, fs1.get q = if d <+: q then none else fs.get q := by
          intro q
          subst hfs
          by_cases hq : q = []
          · subst hq
            have : ¬ d <+: [] := by simpa using hd
            simp [FS.get, this]
          · simp [FS.get, hq]
        have hl1 : lookup fs1 d = .error .ENOENT := by
          obtain ⟨c, hc⟩ := dropLast_append_getLast d hd
          have hpar1 : lookup fs1 d.dropLast = .ok (.dir true) := by
            rw [← hpar]
            apply lookup_congr
            intro r hr2
            rw [hget]
            have : ¬ d <+: r := by
              intro h3
              exact dropLast_not_extended d hd (h3.trans hr2)
            simp [this]
          have hgd : fs1.get d = none := by
            rw [hget]; simp
          have := lookup_snoc fs1 d.dropLast c
          rw [← hc, hpar1] at this
          simpa [hgd] using this
        refine ⟨hget, hl1, ?_⟩
        simp [Settings.del, os.Stat, hl1, os.IsNotExist]

/-- C1, counterexample: in an empty directory `del(".realize")` returns the
not-exist error, not nil; and after a `del` that removed the working
directory, the second `del` returns that error. -/
theorem del_absent_is_error :
    os.Stat emptyFS [directory] = some (.sys .ENOENT) ∧
    (settings0.del emptyFS [directory]).2 = some (.sys .ENOENT) ∧
    (settings0.del withWorkingDir [directory]).2 = none ∧
    (settings0.del (settings0.del withWorkingDir [directory]).1 [directory]).2 =
      some (.sys .ENOENT) := by
  decide

/-- C1, the amended statement at two concrete states. -/
theorem del_absent_reports_not_exist_witness :
    settings0.del emptyFS [directory] = (emptyFS, some (.sys .ENOENT)) ∧
    settings0.del (settings0.del withWorkingDir [directory]).1 [directory] =
      ((settings0.del withWorkingDir [directory]).1, some (.sys .ENOENT)) :=
  ⟨(del_absent_reports_not_exist settings0 emptyFS [directory]).1 (by decide),
   ((del_absent_reports_not_exist settings0 withWorkingDir [directory]).2 _ rfl).2.2⟩

theorem Mkdir_error_state (fs : FS) (p : Path) (perm : Nat)
    (h : (os.Mkdir fs p perm).2 ≠ none) : (os.Mkdir fs p perm).1 = fs := by
  unfold os.Mkdir at h ⊢
  rcases hl : lookup fs p with e | n
  · rw [hl] at h
    cases e <;> simp only [] at h ⊢
    rcases hp : lookup fs p.dropLast with e2 | m
    · rfl
    · rw [hp] at h
      cases m with
      | file _ => rfl
      | dir w =>
        cases w
        · rfl
        · simp at h
  · rfl

theorem Mkdir_cwd_writable (fs : FS) (c : String) (perm : Nat)
    (hl : lookup fs [c] = .error .ENOENT) (hw : fs.cwdWritable = true) :
    (os.Mkdir fs [c] perm).2 = none := by
  simp [os.Mkdir, hl, lookup_nil, hw]

theorem recordTarget_cases (s : Settings) (fs : FS) :
    (s.recordTarget fs).2 = [directory, s.file] ∨
      ((s.recordTarget fs).2 = [s.file] ∧ (s.recordTarget fs).1 = fs ∧
        lookup fs [directory] = .error .ENOENT ∧
        (os.Mkdir fs [directory] permission).2 ≠ none) := by
  unfold Settings.recordTarget
  by_cases hn : os.IsNotExist (os.Stat fs [directory]) = true
  · simp only [hn, if_true]
    have hl := (Stat_not_exist_iff fs [directory]).mp hn
    rcases hmk : os.Mkdir fs [directory] permission with ⟨fs1, _ | e⟩
    · exact Or.inl rfl
    · refine Or.inr ⟨rfl, ?_, hl, by simp⟩
      have := Mkdir_error_state fs [directory] permission (by rw [hmk]; simp)
      rw [hmk] at this
      exact this
  · simp only [hn]
    exact Or.inl rfl

theorem recordTarget_fallback (s : Settings) (fs : FS)
    (hstat : os.Stat fs [directory] = some (.sys .ENOENT))
    (hmk : (os.Mkdir fs [directory] permission).2 ≠ none) :
    s.recordTarget fs = (fs, [s.file]) := by
  have hfs := Mkdir_error_state fs [directory] permission hmk
  unfold Settings.recordTarget
  rw [hstat]
  rcases hm : os.Mkdir fs [directory] permission with ⟨fs1, _ | e⟩
  · rw [hm] at hmk; simp at hmk
  · rw [hm] at hfs
    simp only at hfs
    simp [os.IsNotExist, hfs]

/-- C2, amended: when the working directory does not exist (the existence check
reports not-exist), creating it fails and the bare file name is writable,
`record` returns nil without ending the process, and afterwards the bare
file holds exactly the serialized bytes. -/
theorem record_fallback_bare {α : Type} (s : Settings) (yaml : Codec α) (fs : FS) (out : α)
    (y : Bytes) (hm : yaml.Marshal out = (y, none))
    (hstat : os.Stat fs [directory] = some (.sys .ENOENT))
    (hmk : (os.Mkdir fs [directory] permission).2 ≠ none)
    (hw : (ioutil.WriteFile fs [s.file] y permission).2 = none) :
    ∃ fs1, s.record yaml fs out = .ret (fs1, none) ∧
      ioutil.WriteFile fs [s.file] y permission = (fs1, none) ∧
      lookup fs1 [s.file] = .ok (.file y) ∧
      ioutil.ReadFile fs1 [s.file] = (y, none) := by
  rcases hW : ioutil.WriteFile fs [s.file] y permission with ⟨fs1, e⟩
  rw [hW] at hw
  simp only at hw
  subst hw
  have hl := (WriteFile_ok_lookup fs fs1 [s.file] y permission hW).1
  refine ⟨fs1, ?_, rfl, hl, by simp [ioutil.ReadFile, hl]⟩
  rw [record_eq_write s yaml fs out y hm, recordTarget_fallback s fs hstat hmk, write_eq]
  simp only
  rw [hW]

/-- C2, counterexample: `.realize` is occupied by a regular file, so it cannot
be created, and the bare file is writable; `record` makes no attempt to
create the directory, writes to the namespaced path and ends the process on
the failure of that write. -/
theorem record_occupied_directory_exits :
    (os.Mkdir occupiedFS [directory] permission).2 = some (.sys .EEXIST) ∧
    (ioutil.WriteFile occupiedFS [file] [10, 1, 0, 0] permission).2 = none ∧
    fieldCodec.Marshal settings10 = ([10, 1, 0, 0], none) ∧
    settings10.record fieldCodec occupiedFS settings10 = .exit [""] (.sys .ENOTDIR) :=
  ⟨by decide, by decide, by decide, rfl⟩

/-- C2, the amended statement in a read-only directory with a bare file. -/
theorem record_fallback_bare_witness :
    ∃ fs1, settings10.record fieldCodec readOnlyLegacyFS settings10 = .ret (fs1, none) ∧
      ioutil.ReadFile fs1 [file] = ([10, 1, 0, 0], none) := by
  obtain ⟨fs1, h1, _, _, h4⟩ :=
    record_fallback_bare settings10 fieldCodec readOnlyLegacyFS settings10 [10, 1, 0, 0]
      (by decide) (by decide) (by decide) (by decide)
  exact ⟨fs1, h1, h4⟩

/-- C3, amended: for a serializable value, when the final write (on the
namespaced path, or on the bare path after the creation of the directory
failed) fails, `record` ends the process with that error; when it succeeds,
`record` returns nil; `record` never returns an error of a write. -/
theorem record_write_failure_exits {α : Type} (s : Settings) (yaml : Codec α) (fs : FS)
    (out : α) (y : Bytes) (hm : yaml.Marshal out = (y, none)) :
    (∀ e, (ioutil.WriteFile (s.recordTarget fs).1 (s.recordTarget fs).2 y permission).2
        = some e → s.record yaml fs out = .exit [""] e) ∧
    (∀ fs1, ioutil.WriteFile (s.recordTarget fs).1 (s.recordTarget fs).2 y permission
        = (fs1, none) → s.record yaml fs out = .ret (fs1, none)) ∧
    (∀ fs1 err, s.record yaml fs out ≠ .ret (fs1, some err)) ∧
    ((s.recordTarget fs).2 = filepath.Join [[directory], [s.file]] ∨
      ((s.recordTarget fs).2 = [s.file] ∧ os.Stat fs [directory] = some (.sys .ENOENT) ∧
        (os.Mkdir fs [directory] permission).2 ≠ none)) := by
  rw [record_eq_write s yaml fs out y hm, write_eq]
  refine ⟨?_, ?_, ?_, ?_⟩
  · intro e he
    rcases hW : ioutil.WriteFile (s.recordTarget fs).1 (s.recordTarget fs).2 y permission
      with ⟨fs1, e1⟩
    rw [hW] at he
    simp only at he
    subst he
    rfl
  · intro fs1 h
    rw [h]
  · intro fs1 err
    rcases ioutil.WriteFile (s.recordTarget fs).1 (s.recordTarget fs).2 y permission
      with ⟨fs2, _ | e1⟩ <;> simp
  · rcases recordTarget_cases s fs with h | ⟨h1, _, h3, h4⟩
    · exact Or.inl h
    · exact Or.inr ⟨h1, by simp [os.Stat, h3], h4⟩

/-- C3, counterexample: in a read-only directory the creation of `.realize`
fails and so does the write to the bare path; with a directory at the
namespaced path the namespaced write fails.  Both times `record` ends the
process and returns nothing. -/
theorem record_write_error_not_returned :
    (ioutil.WriteFile readOnlyFS [file] [10, 1, 0, 0] permission).2 = some (.sys .EACCES) ∧
    settings10.record fieldCodec readOnlyFS settings10 = .exit [""] (.sys .EACCES) ∧
    (ioutil.WriteFile dirAsConfigFS [directory, file] [10, 1, 0, 0] permission).2 =
      some (.sys .EISDIR) ∧
    settings10.record fieldCodec dirAsConfigFS settings10 = .exit [""] (.sys .EISDIR) :=
  ⟨by decide, rfl, by decide, rfl⟩

/-- C3, the amended statement in an empty read-only directory. -/
theorem record_write_failure_exits_witness :
    settings10.record fieldCodec readOnlyFS settings10 = .exit [""] (.sys .EACCES) :=
  (record_write_failure_exits settings10 fieldCodec readOnlyFS settings10 [10, 1, 0, 0]
    (by decide)).1 _ (by decide)

theorem fieldCodec_inverts : fieldCodec.Inverts := by
  intro v out y h
  simp only [fieldCodec] at h
  by_cases hc : v.Files = noFiles ∧ 0 ≤ v.FileLimit ∧ 0 ≤ v.Legacy.Interval
  · rw [if_pos hc] at h
    simp only [Prod.mk.injEq, and_true] at h
    subst h
    obtain ⟨hf, hl, hi⟩ := hc
    refine ⟨_, rfl, ?_⟩
    unfold populatedEq
    simp only [hf, noFiles]
    refine ⟨by simp, by simp, by simp, by simp, ?_, ?_, ?_⟩
    · rcases v with ⟨f, fl, ⟨force, interval⟩, lim, rec⟩
      simp only at hi ⊢
      cases force <;> simp [Int.toNat_of_nonneg hi]
    · intro _
      simp [Int.toNat_of_nonneg hl]
    · intro hr
      simp [hr]
  · rw [if_neg hc] at h
    simp at h

theorem fallback_namespaced_absent (s : Settings) (fs fs1 : FS) (y : Bytes)
    (hl : lookup fs [directory] = .error .ENOENT)
    (hmk : (os.Mkdir fs [directory] permission).2 ≠ none)
    (hW : ioutil.WriteFile fs [s.file] y permission = (fs1, none)) :
    ∃ e, lookup fs1 [directory, s.file] = .error e := by
  obtain ⟨_, _, _, hcase⟩ := WriteFile_ok fs fs1 [s.file] y permission hW
  have hne : ¬ [s.file] <+: [directory] := by
    intro hp
    have hEq : s.file = directory := by
      have := List.IsPrefix.eq_of_length hp (by simp)
      simpa using this
    rw [hEq] at hcase
    rcases hcase with ⟨d, hd⟩ | ⟨_, hpar⟩
    · rw [hl] at hd; cases hd
    · simp only [List.dropLast_single, lookup_nil, Except.ok.injEq, Node.dir.injEq] at hpar
      exact hmk (Mkdir_cwd_writable fs directory permission hl hpar)
  have hd1 : lookup fs1 [directory] = .error .ENOENT := by
    rw [(WriteFile_ok_lookup fs fs1 [s.file] y permission hW).2 _ hne, hl]
  have := lookup_snoc fs1 [directory] s.file
  rw [hd1] at this
  exact ⟨.ENOENT, this⟩

/-- C8: round trip through the store.  When the decoder inverts the encoder and
`record(v)` returns nil, then `record` wrote the serialized bytes `y` of `v`
at its target path, the `read` that follows resolves to that very path, is
handed exactly `y`, returns nil and yields a value equal to `v` in all
populated fields. -/
theorem record_read_roundtrip (yaml : Codec Settings) (s v out : Settings) (fs fs1 : FS)
    (hinv : yaml.Inverts) (hrec : s.record yaml fs v = .ret (fs1, none)) :
    ∃ y w, yaml.Marshal v = (y, none) ∧
      ioutil.WriteFile (s.recordTarget fs).1 (s.recordTarget fs).2 y permission = (fs1, none) ∧
      s.localConfigPath fs1 = (s.recordTarget fs).2 ∧
      s.stream fs1 (s.localConfigPath fs1) = .ret (y, none) ∧
      s.read yaml fs1 out = .ret (w, none) ∧ populatedEq v w := by
  rcases hm : yaml.Marshal v with ⟨y, _ | t⟩
  · rw [record_eq_write s yaml fs v y hm, write_eq] at hrec
    rcases hW : ioutil.WriteFile (s.recordTarget fs).1 (s.recordTarget fs).2 y permission
      with ⟨fs2, _ | e⟩
    · rw [hW] at hrec
      simp only [Outcome.ret.injEq, Prod.mk.injEq, and_true] at hrec
      subst hrec
      obtain ⟨hlk, _⟩ := WriteFile_ok_lookup _ _ _ _ _ hW
      have hpath : s.localConfigPath fs2 = (s.recordTarget fs).2 := by
        rw [localConfigPath_eq]
        rcases recordTarget_cases s fs with h | ⟨h1, h2, h3, h4⟩
        · rw [h] at hlk ⊢
          rw [hlk]
        · rw [h1, h2] at hW
          obtain ⟨e, he⟩ := fallback_namespaced_absent s fs fs2 y h3 h4 hW
          rw [he, h1]
      have hstream : s.stream fs2 (s.localConfigPath fs2) = .ret (y, none) := by
        rw [hpath]
        exact stream_file s fs2 _ y hlk
      obtain ⟨w, hu, hpe⟩ := hinv v out y hm
      refine ⟨y, w, rfl, hW, hpath, hstream, ?_, hpe⟩
      rw [read_eq, hstream]
      simp [hu]
    · rw [hW] at hrec
      cases hrec
  · simp [Settings.record, hm] at hrec

/-- C8 for `Settings{FileLimit: 10, Recovery: true}` in an empty directory. -/
theorem record_read_roundtrip_witness :
    ∃ fs1 w, settings10.record fieldCodec emptyFS settings10 = .ret (fs1, none) ∧
      settings10.read fieldCodec fs1 settings0 = .ret (w, none) ∧
      w.FileLimit = 10 ∧ w.Recovery = true ∧ w.Legacy.Force = false := by
  have hrec : settings10.record fieldCodec emptyFS settings10 =
      .ret (((emptyFS.set [directory] (some (.dir true))).set [directory, file]
        (some (.file []))).set [directory, file] (some (.file [10, 1, 0, 0])), none) := rfl
  obtain ⟨y, w, _, _, _, _, hread, hpe⟩ :=
    record_read_roundtrip fieldCodec settings10 settings10 settings0 emptyFS _
      fieldCodec_inverts hrec
  refine ⟨_, w, hrec, hread, hpe.2.2.2.2.2.1 (by decide), hpe.2.2.2.2.2.2 (by decide), ?_⟩
  have := hpe.2.2.2.2.1
  rw [this]
  rfl

theorem create_eq (s : Settings) (fs : FS) (path : Path) (name : String) :
    s.create fs path name =
      match os.OpenFile fs (Settings.createFile fs path name)
          [Flag.O_APPEND, Flag.O_WRONLY, Flag.O_CREATE, Flag.O_SYNC] permission with
      | (fs1, out, none) => .ret (fs1, out)
      | (_, _, some e) => .exit [""] e := by
  unfold Settings.create Settings.createFile
  simp only
  rcases os.OpenFile fs _ [Flag.O_APPEND, Flag.O_WRONLY, Flag.O_CREATE, Flag.O_SYNC]
    permission with ⟨fs1, out, _ | e⟩ <;> simp [Settings.validate, Settings.fatal]

theorem OpenFile_append_eq (fs : FS) (p : Path) (perm : Nat) :
    os.OpenFile fs p [Flag.O_APPEND, Flag.O_WRONLY, Flag.O_CREATE, Flag.O_SYNC] perm =
      match lookup fs p with
      | .ok (.dir _) => (fs, none, some (.sys .EISDIR))
      | .ok (.file _) =>
        (fs, some ⟨p, [Flag.O_APPEND, Flag.O_WRONLY, Flag.O_CREATE, Flag.O_SYNC]⟩, none)
      | .error .ENOENT =>
        match lookup fs p.dropLast with
        | .ok (.dir true) =>
          (fs.set p (some (.file [])),
            some ⟨p, [Flag.O_APPEND, Flag.O_WRONLY, Flag.O_CREATE, Flag.O_SYNC]⟩, none)
        | .ok (.dir false) => (fs, none, some (.sys .EACCES))
        | .ok (.file _) => (fs, none, some (.sys .ENOTDIR))
        | .error e => (fs, none, some (.sys e))
      | .error e => (fs, none, some (.sys e)) := by
  unfold os.OpenFile
  rcases lookup fs p with e | n
  · cases e <;> simp
  · cases n <;> simp

/-- C9, amended: `create(p, name)` opens `p/.realize/name` when `.realize`
exists in the directory the process runs in, and `p/name` otherwise.  An
existing file is opened as it is (the state does not change), a missing one
is created empty when its parent is a writable directory; whenever `create`
returns, the handle is append-only with create-if-absent, existing content
is kept and a write through the handle goes to the end. -/
theorem create_resolves_against_cwd (s : Settings) (fs : FS) (path : Path) (name : String) :
    (os.Stat fs [directory] = none →
      Settings.createFile fs path name = path ++ [directory, name]) ∧
    (os.Stat fs [directory] ≠ none → Settings.createFile fs path name = path ++ [name]) ∧
    (∀ old, lookup fs (Settings.createFile fs path name) = .ok (.file old) →
      s.create fs path name = .ret (fs, some ⟨Settings.createFile fs path name,
        [Flag.O_APPEND, Flag.O_WRONLY, Flag.O_CREATE, Flag.O_SYNC]⟩)) ∧
    (lookup fs (Settings.createFile fs path name) = .error .ENOENT →
      lookup fs (Settings.createFile fs path name).dropLast = .ok (.dir true) →
      s.create fs path name =
        .ret (fs.set (Settings.createFile fs path name) (some (.file [])),
          some ⟨Settings.createFile fs path name,
            [Flag.O_APPEND, Flag.O_WRONLY, Flag.O_CREATE, Flag.O_SYNC]⟩)) ∧
    (∀ fs1 f, s.create fs path name = .ret (fs1, f) →
      f = some ⟨Settings.createFile fs path name,
        [Flag.O_APPEND, Flag.O_WRONLY, Flag.O_CREATE, Flag.O_SYNC]⟩ ∧
      (∀ old, lookup fs (Settings.createFile fs path name) = .ok (.file old) →
        lookup fs1 (Settings.createFile fs path name) = .ok (.file old)) ∧
      (∀ old data, fs1.get (Settings.createFile fs path name) = some (.file old) →
        os.File.Write ⟨Settings.createFile fs path name,
            [Flag.O_APPEND, Flag.O_WRONLY, Flag.O_CREATE, Flag.O_SYNC]⟩ fs1 data =
          (fs1.set (Settings.createFile fs path name) (some (.file (old ++ data))), none))) := by
  refine ⟨?_, ?_, ?_, ?_, ?_⟩
  · intro h
    simp [Settings.createFile, h, filepath.Join]
  · intro h
    simp [Settings.createFile, h, filepath.Join]
  · intro old h
    rw [create_eq, OpenFile_append_eq, h]
  · intro h hpar
    rw [create_eq, OpenFile_append_eq, h]
    simp only
    rw [hpar]
  · intro fs1 f h
    rw [create_eq, OpenFile_append_eq] at h
    have hwrite : ∀ old data,
        fs1.get (Settings.createFile fs path name) = some (.file old) →
        os.File.Write ⟨Settings.createFile fs path name,
            [Flag.O_APPEND, Flag.O_WRONLY, Flag.O_CREATE, Flag.O_SYNC]⟩ fs1 data =
          (fs1.set (Settings.createFile fs path name) (some (.file (old ++ data))), none) := by
      intro old data hg
      simp [os.File.Write, hg]
    rcases hl : lookup fs (Settings.createFile fs path name) with e | n
    · rw [hl] at h
      cases e <;> simp only [] at h <;> try (cases h)
      rcases hp : lookup fs (Settings.createFile fs path name).dropLast with e2 | m
      · rw [hp] at h; cases h
      · rw [hp] at h
        cases m with
        | file _ => cases h
        | dir w =>
          cases w
          · cases h
          · simp only [Outcome.ret.injEq, Prod.mk.injEq] at h
            exact ⟨h.2.symm, fun old ho => (by cases ho), hwrite⟩
    · rw [hl] at h
      cases n with
      | dir _ => cases h
      | file d =>
        simp only [Outcome.ret.injEq, Prod.mk.injEq] at h
        obtain ⟨h1, h2⟩ := h
        subst h1
        exact ⟨h2.symm, fun old ho => hl.trans ho, hwrite⟩

/-- C9, counterexample: `proj/.realize` exists, `.realize` does not; `create`
on the base path `proj` opens the bare `proj/outputs.log`, not
`proj/.realize/outputs.log`. -/
theorem create_ignores_base_working_dir :
    lookup projectFS ["proj", directory] = .ok (.dir true) ∧
    os.Stat projectFS [directory] = some (.sys .ENOENT) ∧
    settings0.create projectFS ["proj"] fileOut =
      .ret (projectFS, some ⟨["proj", fileOut],
        [Flag.O_APPEND, Flag.O_WRONLY, Flag.O_CREATE, Flag.O_SYNC]⟩) ∧
    ["proj", fileOut] ≠ ["proj", directory, fileOut] :=
  ⟨by decide, by decide, rfl, by decide⟩

/-- C9, the amended statement for an existing outputs file. -/
theorem create_resolves_against_cwd_witness :
    settings0.create projectFS ["proj"] fileOut =
      .ret (projectFS, some ⟨["proj", fileOut],
        [Flag.O_APPEND, Flag.O_WRONLY, Flag.O_CREATE, Flag.O_SYNC]⟩) ∧
    lookup projectFS ["proj", fileOut] = .ok (.file [104, 105]) :=
  ⟨(create_resolves_against_cwd settings0 projectFS ["proj"] fileOut).2.2.1 [104, 105]
      (by decide), by decide⟩

end Realize
